import Mathlib

/-!
Verification of the key-transformation and pattern-matching layer of
py2store (src/py2store/core.py): prefix relativization, template-derived
key matching (PathFormat), explicit key collections, and common-prefix
inference.

Keys and templates are modelled as `List Char`; the platform path
separator (`os.path.sep`) is fixed to the reference value here, the
POSIX slash used throughout the repository's doctests.
-/

set_option autoImplicit false

namespace Py2Store

/-! ## Definitions -/

/-- The platform path separator, `os.path.sep` in the source. -/
def file_sep : Char := '/'

/-- The opening placeholder delimiter of the template mini-language. -/
def lbrace : Char := Char.ofNat 123

/-- The closing placeholder delimiter of the template mini-language. -/
def rbrace : Char := Char.ofNat 125

/-- Boolean test that a string ends with the path separator,
`path.endswith(file_sep)` in the source. -/
def endsWithSep (p : List Char) : Bool :=
  p.getLast? == some file_sep

/-- Embeds `ensure_slash_suffix` from core.py: append the path separator
unless the path already ends with it. -/
def ensure_slash_suffix (path : List Char) : List Char :=
  if endsWithSep path then path else path ++ [file_sep]

/-- Error values for the fallible operations. `assertionError` is what a
failing Python `assert` raises; `invalidCollectionError` and
`prefixMismatchError` are the error names the specification's taxonomy
proposes (no class of either name appears in the code). -/
inductive PyErr where
  | assertionError
  | invalidCollectionError
  | prefixMismatchError
deriving DecidableEq

/-- Modelled from the spec: `PrefixRelativizationMixin._key_of_id`
(py2store/mixins.py, not under src/). Per the spec, the source
"silently slices the prefix length off any key during relativization
without checking the key actually starts with the prefix":
`_id[len(self._prefix):]`. -/
def _key_of_id (pfx _id : List Char) : List Char :=
  _id.drop pfx.length

/-- Modelled from the spec: `PrefixRelativizationMixin._id_of_key`
(py2store/mixins.py, not under src/): prepend the prefix,
`self._prefix + k`. -/
def _id_of_key (pfx k : List Char) : List Char :=
  pfx ++ k

/-- Modelled from the spec: the observable behavior of relativization in
the source. The result type allows an error so that the spec's strict
`PrefixMismatchError` policy is statable, but the source never raises:
it always returns the sliced key. -/
def relativize (pfx k : List Char) : Except PyErr (List Char) :=
  Except.ok (_key_of_id pfx k)

/-- Characters other than the path separator, the complement character
class of a default placeholder. -/
def notSep : Char → Bool := fun x => x != file_sep

/-- Right-strip of trailing path separators, `head.rstrip(sep)` in
`os.path.dirname`. -/
def rstripSep (p : List Char) : List Char :=
  (p.reverse.dropWhile (fun x => x == file_sep)).reverse

/-- Embeds `os.path.dirname` (POSIX) as used by core.py:
`head = p[:p.rfind(sep) + 1]` — expressed as reversing and dropping the
trailing run of non-separator characters — kept as-is when empty or
made of separators only, and right-stripped of separators otherwise. -/
def dirname (p : List Char) : List Char :=
  if (p.reverse.dropWhile (fun x => x != file_sep)).reverse ≠ []
      ∧ ¬ ((p.reverse.dropWhile (fun x => x != file_sep)).reverse.all
            (fun x => x == file_sep) = true) then
    rstripSep ((p.reverse.dropWhile (fun x => x != file_sep)).reverse)
  else
    (p.reverse.dropWhile (fun x => x != file_sep)).reverse

/-- A fragment of a compiled template: a literal run, or a named
placeholder field. -/
inductive Tok where
  | lit (s : List Char)
  | field (name : List Char)
deriving DecidableEq

/-- Fuel-indexed scan of a template into fragments: a placeholder is
read up to its closing delimiter, a literal run up to the next opening
delimiter. One unit of fuel is spent per fragment, so fuel equal to the
template length always suffices. -/
def parseT : Nat → List Char → List Tok
  | 0, _ => []
  | _ + 1, [] => []
  | fuel + 1, c :: cs =>
    if c = lbrace then
      Tok.field (cs.takeWhile (fun x => x != rbrace)) ::
        parseT fuel ((cs.dropWhile (fun x => x != rbrace)).drop 1)
    else
      Tok.lit ((c :: cs).takeWhile (fun x => x != lbrace)) ::
        parseT fuel ((c :: cs).dropWhile (fun x => x != lbrace))

/-- Modelled from the spec: the fragment scan of `match_re_for_fstring`
(py2store/parse_format.py, not under src/): "scan the template left to
right; emit each literal run as an escaped literal match fragment; emit
each placeholder as a capturing wildcard fragment". -/
def parseTemplate (t : List Char) : List Tok :=
  parseT t.length t

/-- Placeholder names recognized as spanning path separators. The spec
leaves the exact convention open (section 9) but fixes its effect on the
reference vectors: in `"{rootdir}/{relative_path}.ext"` both fields may
span separators; names ending in `dir` or `path` are recognized. -/
def spanningName (name : List Char) : Bool :=
  "dir".toList.isSuffixOf name || "path".toList.isSuffixOf name

/-- Modelled from the spec: the value domain of one placeholder
(py2store/parse_format.py, not under src/): the empty-name placeholder
appended for literal-only templates is "an unconstrained wildcard
suffix"; a recognized spanning name matches one or more arbitrary
characters; any other name matches "one or more characters excluding
the path-separator character". -/
def fieldMatches (name s : List Char) : Bool :=
  if name.isEmpty then true
  else if spanningName name then !s.isEmpty
  else !s.isEmpty && s.all notSep

/-- Fuel-indexed matcher of a fragment list against a candidate key,
anchored at both ends: a literal fragment must occur verbatim, a
placeholder fragment may consume any admissible split. Fuel equal to
the number of fragments always suffices. -/
def matchToksF : Nat → List Tok → List Char → Bool
  | _, [], k => k.isEmpty
  | 0, _ :: _, _ => false
  | fuel + 1, Tok.lit s :: ts, k =>
      s.isPrefixOf k && matchToksF fuel ts (k.drop s.length)
  | fuel + 1, Tok.field name :: ts, k =>
      (List.range (k.length + 1)).any
        (fun n => fieldMatches name (k.take n) && matchToksF fuel ts (k.drop n))

/-- Modelled from the spec: the whole-string matching rule compiled by
`match_re_for_fstring` (py2store/parse_format.py, not under src/):
"concatenate fragments into one whole-string matching rule (implicit
anchors at both ends)". -/
def matchToks (ts : List Tok) (k : List Char) : Bool :=
  matchToksF ts.length ts k

/-- Embeds `PathFormat.__init__` from core.py: for a template without a
placeholder delimiter the prefix is the slash-suffixed template itself
and an empty placeholder is appended for matching; otherwise the prefix
is the slash-suffixed dirname of the leading placeholder-free segment
(`re.match('[^{]*', path_format)`), and the template is compiled as
given. -/
structure PathFormat where
  path_format : List Char
  rootdir : List Char
  toks : List Tok
deriving DecidableEq

def mkPathFormat (path_format : List Char) : PathFormat :=
  if lbrace ∉ path_format then
    { path_format := path_format
      rootdir := ensure_slash_suffix path_format
      toks := parseTemplate (path_format ++ [lbrace, rbrace]) }
  else
    { path_format := path_format
      rootdir := ensure_slash_suffix
        (dirname (path_format.takeWhile (fun x => x != lbrace)))
      toks := parseTemplate path_format }

/-- Embeds `PathFormat.is_valid_key` from core.py: apply the compiled
matching rule to the candidate key. -/
def PathFormat.is_valid_key (pf : PathFormat) (k : List Char) : Bool :=
  matchToks pf.toks k

/-- A Python value handed to `ExplicitKeys.__init__`: either a genuine
`collections.abc.Collection` (modelled by the sequence of its elements)
or some non-collection object. -/
inductive PyVal where
  | coll (l : List (List Char))
  | other
deriving DecidableEq

/-- Embeds `ExplicitKeys` from core.py: a keys-only store whose key
collection is given explicitly at initialization time. -/
structure ExplicitKeys where
  _key_collection : List (List Char)
deriving DecidableEq

/-- Embeds `ExplicitKeys.__init__` from core.py: `assert isinstance(
key_collection, Collection)` fails (with Python's AssertionError) on a
non-collection argument, then the collection is stored as given. -/
def ExplicitKeys.init : PyVal → Except PyErr ExplicitKeys
  | PyVal.coll l => Except.ok ⟨l⟩
  | PyVal.other => Except.error PyErr.assertionError

/-- Embeds `ExplicitKeys.__contains__` from core.py:
`k in self._key_collection`. -/
def ExplicitKeys.contains (e : ExplicitKeys) (k : List Char) : Bool :=
  e._key_collection.contains k

/-- Embeds `ExplicitKeys.__iter__` from core.py:
`yield from self._key_collection`. -/
def ExplicitKeys.iter (e : ExplicitKeys) : List (List Char) :=
  e._key_collection

/-- Embeds `ExplicitKeys.__len__` from core.py:
`len(self._key_collection)`. -/
def ExplicitKeys.size (e : ExplicitKeys) : Nat :=
  e._key_collection.length

/-- The longest common leading run of two strings: the building block of
`max_common_prefix`. -/
def commonPfx2 : List Char → List Char → List Char
  | x :: xs, y :: ys => if x = y then x :: commonPfx2 xs ys else []
  | _, _ => []

/-- Modelled from the spec: `max_common_prefix` (py2store/util.py, not
under src/), "the longest common leading substring shared by every key
in the collection (empty string if the collection is empty)". -/
def maxCommonPfx : List (List Char) → List Char
  | [] => []
  | k :: ks => ks.foldl commonPfx2 k

/-- Embeds `ExplicitKeysWithPrefixRelativization.__init__` from core.py:
when `_prefix` is `None` it is inferred as `max_common_prefix` of the
key collection; the raw keys are wrapped in an `ExplicitKeys`. -/
structure ExplicitKeysWithPrefixRelativization where
  keysStore : ExplicitKeys
  pfx : List Char
deriving DecidableEq

def ExplicitKeysWithPrefixRelativization.init
    (key_collection : List (List Char)) (p : Option (List Char)) :
    ExplicitKeysWithPrefixRelativization :=
  { keysStore := ExplicitKeys.mk key_collection
    pfx := p.getD (maxCommonPfx key_collection) }

/-- Modelled from the spec: iteration of the relativized store
(`PrefixRelativizationMixin` over `Store`, py2store/mixins.py and
py2store/base.py, not under src/): "iteration yields each underlying
key with the prefix stripped, in the underlying collection's order". -/
def ExplicitKeysWithPrefixRelativization.iter
    (s : ExplicitKeysWithPrefixRelativization) : List (List Char) :=
  s.keysStore.iter.map (fun k => _key_of_id s.pfx k)

/-- The doctest collection of `ExplicitKeys`. -/
def keysC7 : List (List Char) :=
  ["foo".toList, "bar".toList, "alice".toList]

/-- The doctest collection of `ExplicitKeysWithPrefixRelativization`. -/
def keysC8 : List (List Char) :=
  ["/root/of/foo".toList, "/root/of/bar".toList, "/root/for/alice".toList]

/-- The literal-only reference template of C3. -/
def tRootC3 : List Char := "/root/of".toList

/-- The placeholder reference template of C4, `"{rootdir}/{relative_path}.ext"`. -/
def tC4 : List Char := "\x7brootdir\x7d/\x7brelative_path\x7d.ext".toList

/-! ## Theorems -/

/-! ### Step equations of the matcher -/

theorem matchToks_nil (k : List Char) : matchToks [] k = k.isEmpty := rfl

theorem matchToks_lit (s : List Char) (ts : List Tok) (k : List Char) :
    matchToks (Tok.lit s :: ts) k
      = (s.isPrefixOf k && matchToks ts (k.drop s.length)) := rfl

theorem matchToks_field (name : List Char) (ts : List Tok) (k : List Char) :
    matchToks (Tok.field name :: ts) k
      = (List.range (k.length + 1)).any
          (fun n => fieldMatches name (k.take n) && matchToks ts (k.drop n)) := rfl

/-! ### C9: ensure_slash_suffix -/

/-- C9: for every string `p`, `ensure_slash_suffix p` ends with the path
separator; `ensure_slash_suffix` is idempotent; and a string already
ending with the separator is returned unchanged (so a string ending in
two separators keeps both). -/
theorem slash_suffix_c9 (p : List Char) :
    endsWithSep (ensure_slash_suffix p) = true
    ∧ ensure_slash_suffix (ensure_slash_suffix p) = ensure_slash_suffix p
    ∧ (endsWithSep p = true → ensure_slash_suffix p = p) := by
  by_cases h : endsWithSep p = true
  · refine ⟨by simp [ensure_slash_suffix, h], by simp [ensure_slash_suffix, h], fun _ => by
      simp [ensure_slash_suffix, h]⟩
  · have hsep : endsWithSep (p ++ [file_sep]) = true := by
      simp [endsWithSep, List.getLast?_concat]
    refine ⟨?_, ?_, fun hc => absurd hc h⟩
    · simpa [ensure_slash_suffix, h] using hsep
    · simp [ensure_slash_suffix, h, hsep]

/-- Witness for C9 at the concrete input `"/a//"`: it already ends with
the separator (twice) and is kept intact. -/
theorem slash_suffix_c9_witness :
    ensure_slash_suffix "/a//".toList = "/a//".toList :=
  (slash_suffix_c9 "/a//".toList).2.2 (by decide)

/-! ### C1: the relativization round trip -/

/-- C1: for a prefix `p` and an absolute key `k` that starts with `p`,
derelativize (relativize k) = k; and for every relative key `r`,
relativize (derelativize r) = r. -/
theorem round_trip_c1 (p k r : List Char) (h : p <+: k) :
    _id_of_key p (_key_of_id p k) = k
    ∧ _key_of_id p (_id_of_key p r) = r := by
  obtain ⟨t, rfl⟩ := h
  constructor
  · simp [_id_of_key, _key_of_id]
  · simp [_id_of_key, _key_of_id]

/-- Witness for C1 at prefix `"/root/of/"`, absolute key
`"/root/of/foo"` and relative key `"the/file"`. -/
theorem round_trip_c1_witness :
    _id_of_key "/root/of/".toList (_key_of_id "/root/of/".toList "/root/of/foo".toList)
      = "/root/of/foo".toList
    ∧ _key_of_id "/root/of/".toList (_id_of_key "/root/of/".toList "the/file".toList)
      = "the/file".toList :=
  round_trip_c1 "/root/of/".toList "/root/of/foo".toList "the/file".toList
    ⟨"foo".toList, by decide⟩

/-! ### C5: relativization of a mismatched key -/

/-- Counterexample to C5: with prefix `"/root/"` and key `"/other/x"`,
which does not start with the prefix, `relativize` does not fail with
`PrefixMismatchError`; it silently returns the truncated key `"/x"`. -/
theorem relativize_slices_c5_cex :
    "/root/".toList.isPrefixOf "/other/x".toList = false
    ∧ relativize "/root/".toList "/other/x".toList = Except.ok "/x".toList
    ∧ relativize "/root/".toList "/other/x".toList
        ≠ Except.error PyErr.prefixMismatchError := by
  refine ⟨by decide, rfl, fun hc => Except.noConfusion hc⟩

/-- C5 as amended: for every absolute key `k` that does not start with
the configured prefix, `relativize` raises nothing and returns the key
with the first `len(prefix)` characters sliced off; this silent result
is genuinely truncated, in that prepending the prefix back does not
recover `k`. -/
theorem relativize_slices_c5 (p k : List Char) (h : ¬ p <+: k) :
    relativize p k = Except.ok (_key_of_id p k)
    ∧ _id_of_key p (_key_of_id p k) ≠ k := by
  refine ⟨rfl, fun hc => h ⟨_key_of_id p k, hc⟩⟩

/-- Witness for the amended C5 at prefix `"/root/"` and key `"/other/x"`. -/
theorem relativize_slices_c5_witness :
    relativize "/root/".toList "/other/x".toList
      = Except.ok (_key_of_id "/root/".toList "/other/x".toList)
    ∧ _id_of_key "/root/".toList (_key_of_id "/root/".toList "/other/x".toList)
        ≠ "/other/x".toList :=
  relativize_slices_c5 "/root/".toList "/other/x".toList (by decide)

/-! ### C6: construction-time collection check -/

/-- Counterexample to C6: constructing `ExplicitKeys` from a
non-collection fails with Python's `AssertionError` (the source guards
with a bare `assert isinstance(...)`), not with an
`InvalidCollectionError`, which is nowhere raised by the code. -/
theorem explicit_keys_ctor_c6_cex :
    ExplicitKeys.init PyVal.other = Except.error PyErr.assertionError
    ∧ Except.error (α := ExplicitKeys) PyErr.assertionError
        ≠ Except.error PyErr.invalidCollectionError := by
  refine ⟨rfl, fun hc => ?_⟩
  exact PyErr.noConfusion (Except.error.inj hc)

/-- C6 as amended: constructing `ExplicitKeys` with an argument that is
not a genuine collection fails at construction time with an assertion
failure (`AssertionError`); construction from a genuine collection
succeeds and stores the collection as given. -/
theorem explicit_keys_ctor_c6 :
    ExplicitKeys.init PyVal.other = Except.error PyErr.assertionError
    ∧ ∀ l : List (List Char), ExplicitKeys.init (PyVal.coll l) = Except.ok ⟨l⟩ :=
  ⟨rfl, fun _ => rfl⟩

/-! ### C7: membership, iteration order, length -/

/-- C7: for `ExplicitKeys` built from `["foo", "bar", "alice"]`,
membership holds for `"foo"` and fails for `"nope"`, iteration yields
exactly the supplied list in order, and the length is 3; in general,
iteration returns the supplied collection itself (duplicates and order
preserved) and the length is the supplied collection's length. -/
theorem explicit_keys_c7 :
    (ExplicitKeys.mk keysC7).contains "foo".toList = true
    ∧ (ExplicitKeys.mk keysC7).contains "nope".toList = false
    ∧ (ExplicitKeys.mk keysC7).iter = keysC7
    ∧ (ExplicitKeys.mk keysC7).size = 3
    ∧ ∀ l : List (List Char),
        (ExplicitKeys.mk l).iter = l ∧ (ExplicitKeys.mk l).size = l.length := by
  refine ⟨by decide, by decide, rfl, rfl, fun l => ⟨rfl, rfl⟩⟩

/-! ### Common-prefix lemmas -/

theorem commonPfx2_prefix_left : ∀ a b : List Char, commonPfx2 a b <+: a
  | [], _ => by simp [commonPfx2]
  | _ :: _, [] => by simp [commonPfx2]
  | x :: xs, y :: ys => by
    by_cases h : x = y
    · simpa [commonPfx2, h] using commonPfx2_prefix_left xs ys
    · simp [commonPfx2, h]

theorem commonPfx2_prefix_right : ∀ a b : List Char, commonPfx2 a b <+: b
  | [], _ => by simp [commonPfx2]
  | _ :: _, [] => by simp [commonPfx2]
  | x :: xs, y :: ys => by
    by_cases h : x = y
    · subst h
      simpa [commonPfx2] using commonPfx2_prefix_right xs ys
    · simp [commonPfx2, h]

theorem commonPfx2_greatest :
    ∀ p a b : List Char, p <+: a → p <+: b → p <+: commonPfx2 a b := by
  intro p
  induction p with
  | nil => intro a b _ _; exact List.nil_prefix
  | cons c p' ih =>
    rintro a b ⟨s, rfl⟩ ⟨t, ht⟩
    cases b with
    | nil => exact absurd ht (by simp)
    | cons y ys =>
      have hcy : c = y := by
        have := congrArg (List.head? ·) ht
        simpa using this
      subst hcy
      have htail : p' ++ t = ys := by
        have := congrArg (List.tail ·) ht
        simpa using this
      have h1 : p' <+: p' ++ s := ⟨s, rfl⟩
      have h2 : p' <+: ys := ⟨t, htail⟩
      have hrec := ih (p' ++ s) ys h1 h2
      simpa [commonPfx2] using hrec

theorem foldl_cp2_prefix_acc :
    ∀ (ks : List (List Char)) (acc : List Char), ks.foldl commonPfx2 acc <+: acc := by
  intro ks
  induction ks with
  | nil => intro acc; exact List.prefix_refl _
  | cons b ks ih =>
    intro acc
    exact (ih (commonPfx2 acc b)).trans (commonPfx2_prefix_left acc b)

theorem foldl_cp2_prefix_mem :
    ∀ (ks : List (List Char)) (acc k : List Char),
      k ∈ ks → ks.foldl commonPfx2 acc <+: k := by
  intro ks
  induction ks with
  | nil => intro acc k hk; exact absurd hk (by simp)
  | cons b ks ih =>
    intro acc k hk
    rcases List.mem_cons.mp hk with h | h
    · subst h
      exact (foldl_cp2_prefix_acc ks (commonPfx2 acc k)).trans
        (commonPfx2_prefix_right acc k)
    · exact ih (commonPfx2 acc b) k h

theorem foldl_cp2_greatest :
    ∀ (ks : List (List Char)) (acc p : List Char),
      p <+: acc → (∀ k ∈ ks, p <+: k) → p <+: ks.foldl commonPfx2 acc := by
  intro ks
  induction ks with
  | nil => intro acc p hacc _; exact hacc
  | cons b ks ih =>
    intro acc p hacc hall
    exact ih (commonPfx2 acc b) p
      (commonPfx2_greatest p acc b hacc (hall b (by simp)))
      (fun k hk => hall k (by simp [hk]))

/-! ### C8: prefix inference -/

/-- C8: when no explicit prefix is supplied, the prefix is
`maxCommonPfx` of the keys, which is the longest common leading
substring of all of them (a common prefix of every key, and maximal
among common prefixes of a nonempty collection); in particular, for the
doctest keys the inferred prefix is `"/root/"` and iteration yields
`"of/foo"`, `"of/bar"`, `"for/alice"` in the supplied order. -/
theorem prefix_inference_c8 :
    (∀ l : List (List Char),
      (ExplicitKeysWithPrefixRelativization.init l none).pfx = maxCommonPfx l)
    ∧ (∀ (l : List (List Char)) (k : List Char), k ∈ l → maxCommonPfx l <+: k)
    ∧ (∀ (l : List (List Char)) (p : List Char), l ≠ [] →
        (∀ k ∈ l, p <+: k) → p <+: maxCommonPfx l)
    ∧ (ExplicitKeysWithPrefixRelativization.init keysC8 none).pfx = "/root/".toList
    ∧ (ExplicitKeysWithPrefixRelativization.init keysC8 none).iter
        = ["of/foo".toList, "of/bar".toList, "for/alice".toList] := by
  refine ⟨fun l => rfl, ?_, ?_, by decide, by decide⟩
  · intro l k hk
    cases l with
    | nil => exact absurd hk (by simp)
    | cons a ks =>
      rcases List.mem_cons.mp hk with h | h
      · subst h
        exact foldl_cp2_prefix_acc ks k
      · exact foldl_cp2_prefix_mem ks a k h
  · intro l p hne hall
    cases l with
    | nil => exact absurd rfl hne
    | cons a ks =>
      exact foldl_cp2_greatest ks a p (hall a (by simp))
        (fun k hk => hall k (by simp [hk]))

/-- Witness for C8: the inferred prefix of the doctest collection is a
leading substring of its first key. -/
theorem prefix_inference_c8_witness :
    maxCommonPfx keysC8 <+: "/root/of/foo".toList :=
  prefix_inference_c8.2.1 keysC8 "/root/of/foo".toList (by decide)

/-! ### C4: the placeholder template vectors -/

/-- C4: the rule compiled from `"{rootdir}/{relative_path}.ext"` accepts
`"a/b/c.ext"` and rejects `"a/b/c.txt"` and `"a/b/c.ext.extra"`: the
whole-string rule is anchored at both ends. -/
theorem template_match_c4 :
    (mkPathFormat tC4).is_valid_key "a/b/c.ext".toList = true
    ∧ (mkPathFormat tC4).is_valid_key "a/b/c.txt".toList = false
    ∧ (mkPathFormat tC4).is_valid_key "a/b/c.ext.extra".toList = false := by
  refine ⟨by decide, by decide, by decide⟩

/-! ### C10: prefix of a template whose leading segment has no separator -/

/-- C10: for every template containing a placeholder delimiter whose
leading placeholder-free segment contains no path separator, the
derived prefix is exactly the one-character separator string. -/
theorem placeholder_prefix_c10 (t : List Char) (h1 : lbrace ∈ t)
    (h2 : file_sep ∉ t.takeWhile (fun x => x != lbrace)) :
    (mkPathFormat t).rootdir = [file_sep] := by
  have hnot : ¬ lbrace ∉ t := fun hc => hc h1
  have hdrop : (t.takeWhile (fun x => x != lbrace)).reverse.dropWhile
      (fun x => x != file_sep) = [] := by
    refine List.dropWhile_eq_nil_iff.mpr ?_
    intro x hx
    have hxmem : x ∈ t.takeWhile (fun x => x != lbrace) := List.mem_reverse.mp hx
    have hxne : x ≠ file_sep := fun hceq => h2 (hceq ▸ hxmem)
    simpa using hxne
  simp [mkPathFormat, hnot, dirname, hdrop, ensure_slash_suffix, endsWithSep]

/-- Witness for C10 at the template `"{a}/b"`, which begins with a
placeholder: the derived prefix is `"/"`. -/
theorem placeholder_prefix_c10_witness :
    (mkPathFormat "\x7ba\x7d/b".toList).rootdir = [file_sep] :=
  placeholder_prefix_c10 "\x7ba\x7d/b".toList (by decide) (by decide)

/-! ### C3: the literal-only template -/

/-- C3: for the literal-only template `"/root/of"`, the derived prefix
is exactly `"/root/of/"`, `is_valid_key` accepts every string starting
with `"/root/of/"`, and it rejects `"/other/"`. -/
theorem literal_template_c3 :
    (mkPathFormat tRootC3).rootdir = "/root/of/".toList
    ∧ (∀ k : List Char, "/root/of/".toList <+: k →
        (mkPathFormat tRootC3).is_valid_key k = true)
    ∧ (mkPathFormat tRootC3).is_valid_key "/other/".toList = false := by
  refine ⟨by decide, ?_, by decide⟩
  rintro k ⟨m, rfl⟩
  have htoks : (mkPathFormat tRootC3).toks
      = [Tok.lit "/root/of".toList, Tok.field []] := by decide
  have hsplit : "/root/of/".toList ++ m = "/root/of".toList ++ (file_sep :: m) := rfl
  rw [PathFormat.is_valid_key, htoks, hsplit, matchToks_lit]
  have hpre : "/root/of".toList.isPrefixOf
      ("/root/of".toList ++ (file_sep :: m)) = true :=
    List.isPrefixOf_iff_prefix.mpr (List.prefix_append _ _)
  rw [hpre, Bool.true_and, List.drop_left, matchToks_field]
  refine List.any_eq_true.mpr ⟨(file_sep :: m).length, List.mem_range.mpr (Nat.lt_succ_self _), ?_⟩
  simp [fieldMatches, matchToks_nil, List.drop_length]

/-- Witness for C3 at the key `"/root/of/x"`, which starts with the
derived prefix and is accepted. -/
theorem literal_template_c3_witness :
    (mkPathFormat tRootC3).is_valid_key "/root/of/x".toList = true :=
  literal_template_c3.2.1 "/root/of/x".toList ⟨"x".toList, rfl⟩

/-! ### Helper lemmas for the prefix invariant -/

theorem ensure_eq_self_of_ends (p : List Char) (h : endsWithSep p = true) :
    ensure_slash_suffix p = p := by
  simp [ensure_slash_suffix, h]

theorem takeWhile_append_of (p : Char → Bool) (b : Char) (hb : p b = false) :
    ∀ (t rest : List Char), (∀ c ∈ t, p c = true) →
      (t ++ b :: rest).takeWhile p = t := by
  intro t
  induction t with
  | nil => intro rest _; simp [List.takeWhile_cons, hb]
  | cons a t ih =>
    intro rest hall
    have ha : p a = true := hall a (by simp)
    simp [List.takeWhile_cons, ha, ih rest (fun c hc => hall c (by simp [hc]))]

theorem dropWhile_append_of (p : Char → Bool) (b : Char) (hb : p b = false) :
    ∀ (t rest : List Char), (∀ c ∈ t, p c = true) →
      (t ++ b :: rest).dropWhile p = b :: rest := by
  intro t
  induction t with
  | nil => intro rest _; simp [List.dropWhile_cons, hb]
  | cons a t ih =>
    intro rest hall
    have ha : p a = true := hall a (by simp)
    simp [List.dropWhile_cons, ha, ih rest (fun c hc => hall c (by simp [hc]))]

theorem dropWhile_ne_eq_cons (c : Char) :
    ∀ l : List Char, c ∈ l → ∃ u, l.dropWhile (fun x => x != c) = c :: u := by
  intro l
  induction l with
  | nil => intro h; exact absurd h (by simp)
  | cons a l ih =>
    intro h
    by_cases hac : a = c
    · subst hac
      exact ⟨l, by simp [List.dropWhile_cons]⟩
    · have hal : c ∈ l := by
        rcases List.mem_cons.mp h with h' | h'
        · exact absurd h'.symm hac
        · exact h'
      obtain ⟨u, hu⟩ := ih hal
      exact ⟨u, by simp [List.dropWhile_cons, bne_iff_ne, hac, hu]⟩

theorem dropWhile_head_false (p : Char → Bool) :
    ∀ (l : List Char) (c : Char) (u : List Char),
      l.dropWhile p = c :: u → p c = false := by
  intro l
  induction l with
  | nil => intro c u h; exact absurd h (by simp)
  | cons a l ih =>
    intro c u h
    by_cases ha : p a = true
    · exact ih c u (by simpa [List.dropWhile_cons, ha] using h)
    · have ha' : p a = false := by simpa using ha
      rw [List.dropWhile_cons, ha'] at h
      simp only [Bool.false_eq_true, if_false, List.cons.injEq] at h
      exact h.1 ▸ ha'

theorem sep_block_cons (w : List Char) (hw : ∀ x ∈ w, x = file_sep) :
    ∃ z, w ++ [file_sep] = file_sep :: z := by
  cases w with
  | nil => exact ⟨[], rfl⟩
  | cons a w' =>
    have ha : a = file_sep := hw a (by simp)
    exact ⟨w' ++ [file_sep], by simp [ha]⟩

theorem matchToks_lit_head (s : List Char) (ts : List Tok) (k : List Char)
    (h : matchToks (Tok.lit s :: ts) k = true) : s <+: k := by
  rw [matchToks_lit] at h
  simp only [Bool.and_eq_true] at h
  exact List.isPrefixOf_iff_prefix.mp h.1

theorem parse_head_lit (t rest : List Char) (fuel : Nat) (hne : t ≠ [])
    (hnb : lbrace ∉ t) :
    ∃ ts, parseT (fuel + 1) (t ++ lbrace :: rest) = Tok.lit t :: ts := by
  cases t with
  | nil => exact absurd rfl hne
  | cons c cs =>
    have hall : ∀ x ∈ c :: cs, (fun x => x != lbrace) x = true := by
      intro x hx
      have hxne : x ≠ lbrace := fun he => hnb (he ▸ hx)
      simpa using hxne
    have hc : ¬ c = lbrace := fun he => hnb (by simp [he])
    have htake : ((c :: cs) ++ lbrace :: rest).takeWhile (fun x => x != lbrace)
        = c :: cs := takeWhile_append_of _ lbrace (by simp) (c :: cs) rest hall
    have hdrop : ((c :: cs) ++ lbrace :: rest).dropWhile (fun x => x != lbrace)
        = lbrace :: rest := dropWhile_append_of _ lbrace (by simp) (c :: cs) rest hall
    refine ⟨parseT fuel (lbrace :: rest), ?_⟩
    rw [List.cons_append]
    simp only [parseT, if_neg hc]
    rw [← List.cons_append, htake, hdrop]

/-- The dirname-based prefix is a leading substring of any segment that
contains a separator: the slash-suffixed `dirname` of `L` never extends
past `L` itself when `L` has at least one separator. -/
theorem ensure_dirname_pfx_of_sep (L : List Char) (h : file_sep ∈ L) :
    ensure_slash_suffix (dirname L) <+: L := by
  obtain ⟨u, hu⟩ := dropWhile_ne_eq_cons file_sep L.reverse (List.mem_reverse.mpr h)
  have hhead : (L.reverse.dropWhile (fun x => x != file_sep)).reverse
      = u.reverse ++ [file_sep] := by
    rw [hu, List.reverse_cons]
  have hheadL : (L.reverse.dropWhile (fun x => x != file_sep)).reverse
      ++ (L.reverse.takeWhile (fun x => x != file_sep)).reverse = L := by
    rw [← List.reverse_append, List.takeWhile_append_dropWhile, List.reverse_reverse]
  have hheadPfx : (L.reverse.dropWhile (fun x => x != file_sep)).reverse <+: L :=
    ⟨(L.reverse.takeWhile (fun x => x != file_sep)).reverse, hheadL⟩
  by_cases hcond : (L.reverse.dropWhile (fun x => x != file_sep)).reverse ≠ []
      ∧ ¬ ((L.reverse.dropWhile (fun x => x != file_sep)).reverse.all
            (fun x => x == file_sep) = true)
  · -- the head has a non-separator character: it is right-stripped
    have hdir : dirname L
        = rstripSep ((L.reverse.dropWhile (fun x => x != file_sep)).reverse) := by
      rw [dirname, if_pos hcond]
    have hrev : ((L.reverse.dropWhile (fun x => x != file_sep)).reverse).reverse
        = file_sep :: u := by
      rw [List.reverse_reverse, hu]
    have hstrip : rstripSep ((L.reverse.dropWhile (fun x => x != file_sep)).reverse)
        = (u.dropWhile (fun x => x == file_sep)).reverse := by
      rw [rstripSep, hrev, List.dropWhile_cons]
      simp
    have hdne : u.dropWhile (fun x => x == file_sep) ≠ [] := by
      intro hnil
      have hallsep : ∀ x ∈ u, (x == file_sep) = true :=
        List.dropWhile_eq_nil_iff.mp hnil
      refine hcond.2 ?_
      rw [hhead]
      refine List.all_eq_true.mpr ?_
      intro x hx
      rcases List.mem_append.mp hx with hx' | hx'
      · exact hallsep x (List.mem_reverse.mp hx')
      · simp only [List.mem_singleton] at hx'
        simp [hx']
    obtain ⟨c0, d', hd⟩ : ∃ c0 d', u.dropWhile (fun x => x == file_sep) = c0 :: d' := by
      cases hdu : u.dropWhile (fun x => x == file_sep) with
      | nil => exact absurd hdu hdne
      | cons c0 d' => exact ⟨c0, d', rfl⟩
    have hc0 : (c0 == file_sep) = false :=
      dropWhile_head_false (fun x => x == file_sep) u c0 d' hd
    have hnotend : endsWithSep ((u.dropWhile (fun x => x == file_sep)).reverse) = false := by
      rw [endsWithSep, List.getLast?_reverse, hd]
      simpa using hc0
    have hens : ensure_slash_suffix ((u.dropWhile (fun x => x == file_sep)).reverse)
        = (u.dropWhile (fun x => x == file_sep)).reverse ++ [file_sep] := by
      rw [ensure_slash_suffix, hnotend]
      simp
    -- decompose u into its trailing separator run and the rest
    have hwsep : ∀ x ∈ (u.takeWhile (fun x => x == file_sep)).reverse, x = file_sep := by
      intro x hx
      have := List.mem_takeWhile_imp (List.mem_reverse.mp hx)
      simpa using this
    obtain ⟨z, hz⟩ := sep_block_cons ((u.takeWhile (fun x => x == file_sep)).reverse) hwsep
    rw [hdir, hstrip, hens]
    -- the stripped prefix plus one separator sits inside the head
    refine List.IsPrefix.trans ?_ hheadPfx
    refine ⟨z, ?_⟩
    rw [hhead]
    calc ((u.dropWhile (fun x => x == file_sep)).reverse ++ [file_sep]) ++ z
        = (u.dropWhile (fun x => x == file_sep)).reverse ++ (file_sep :: z) := by
          rw [List.append_assoc, List.singleton_append]
      _ = (u.dropWhile (fun x => x == file_sep)).reverse
            ++ ((u.takeWhile (fun x => x == file_sep)).reverse ++ [file_sep]) := by
          rw [hz]
      _ = u.reverse ++ [file_sep] := by
          rw [← List.append_assoc, ← List.reverse_append,
            List.takeWhile_append_dropWhile]
  · -- the head is empty or all separators: kept as is, already slash-final
    have hdir : dirname L
        = (L.reverse.dropWhile (fun x => x != file_sep)).reverse := by
      rw [dirname, if_neg hcond]
    have hends : endsWithSep ((L.reverse.dropWhile (fun x => x != file_sep)).reverse)
        = true := by
      rw [hhead, endsWithSep, List.getLast?_concat]
      simp
    rw [hdir, ensure_eq_self_of_ends _ hends]
    exact hheadPfx

/-! ### C2: keys accepted by is_valid_key versus the derived prefix -/

/-- Counterexample to C2: for the template
`"{rootdir}/{relative_path}.ext"` the derived prefix is `"/"`, yet the
accepted key `"a/b/c.ext"` does not start with it. -/
theorem prefix_invariant_c2_cex :
    (mkPathFormat tC4).is_valid_key "a/b/c.ext".toList = true
    ∧ (mkPathFormat tC4).rootdir.isPrefixOf "a/b/c.ext".toList = false
    ∧ (mkPathFormat tC4).rootdir = [file_sep] := by
  refine ⟨by decide, by decide, by decide⟩

/-- C2 as amended: every accepted key starts with the derived prefix
provided the template determines it honestly — for a literal-only
template, when the template already ends with the separator (otherwise
accepted keys only extend the unsuffixed template); for a template with
a placeholder, when the placeholder-free leading segment contains a
separator (otherwise the prefix is the bare `"/"` of an empty dirname,
which accepted keys need not carry). -/
theorem prefix_invariant_c2 (t k : List Char) :
    ((lbrace ∉ t) → endsWithSep t = true →
      (mkPathFormat t).is_valid_key k = true → (mkPathFormat t).rootdir <+: k)
    ∧ ((lbrace ∈ t) → file_sep ∈ t.takeWhile (fun x => x != lbrace) →
      (mkPathFormat t).is_valid_key k = true → (mkPathFormat t).rootdir <+: k) := by
  constructor
  · intro hnb hsep hvk
    have hne : t ≠ [] := by
      intro h0
      rw [h0] at hsep
      exact absurd hsep (by decide)
    have hlen : (t ++ [lbrace, rbrace]).length = (t.length + 1) + 1 := by
      simp
    obtain ⟨ts, hts⟩ := parse_head_lit t [rbrace] (t.length + 1) hne hnb
    have htoks : (mkPathFormat t).toks = Tok.lit t :: ts := by
      rw [mkPathFormat, if_pos hnb]
      show parseTemplate (t ++ [lbrace, rbrace]) = _
      rw [parseTemplate, hlen]
      exact hts
    have hroot : (mkPathFormat t).rootdir = t := by
      rw [mkPathFormat, if_pos hnb]
      exact ensure_eq_self_of_ends t hsep
    rw [PathFormat.is_valid_key, htoks] at hvk
    rw [hroot]
    exact matchToks_lit_head t ts k hvk
  · intro hb hsepL hvk
    have hnot : ¬ lbrace ∉ t := fun hc => hc hb
    have hnbL : lbrace ∉ t.takeWhile (fun x => x != lbrace) := by
      intro hmem
      have := List.mem_takeWhile_imp hmem
      simp at this
    have hLne : t.takeWhile (fun x => x != lbrace) ≠ [] :=
      List.ne_nil_of_mem hsepL
    obtain ⟨u, hu⟩ := dropWhile_ne_eq_cons lbrace t hb
    have hdecomp : t.takeWhile (fun x => x != lbrace) ++ lbrace :: u = t := by
      rw [← hu]
      exact List.takeWhile_append_dropWhile _ t
    obtain ⟨ts, hts⟩ := parse_head_lit (t.takeWhile (fun x => x != lbrace)) u
      ((t.takeWhile (fun x => x != lbrace)).length + u.length) hLne hnbL
    have hparse : parseTemplate (t.takeWhile (fun x => x != lbrace) ++ lbrace :: u)
        = Tok.lit (t.takeWhile (fun x => x != lbrace)) :: ts := by
      rw [parseTemplate]
      have hlen : (t.takeWhile (fun x => x != lbrace) ++ lbrace :: u).length
          = ((t.takeWhile (fun x => x != lbrace)).length + u.length) + 1 := by
        simp [List.length_append]
        omega
      rw [hlen]
      exact hts
    have htoks : (mkPathFormat t).toks
        = Tok.lit (t.takeWhile (fun x => x != lbrace)) :: ts := by
      rw [mkPathFormat, if_neg hnot]
      show parseTemplate t = _
      conv_lhs => rw [← hdecomp]
      exact hparse
    have hroot : (mkPathFormat t).rootdir
        = ensure_slash_suffix (dirname (t.takeWhile (fun x => x != lbrace))) := by
      rw [mkPathFormat, if_neg hnot]
    rw [PathFormat.is_valid_key, htoks] at hvk
    rw [hroot]
    exact (ensure_dirname_pfx_of_sep _ hsepL).trans
      (matchToks_lit_head _ ts k hvk)

/-- Witness for the amended C2: the literal-only template `"/root/of/"`
ends with the separator, and the accepted key `"/root/of/x"` starts
with the derived prefix. -/
theorem prefix_invariant_c2_witness :
    (mkPathFormat "/root/of/".toList).rootdir <+: "/root/of/x".toList :=
  (prefix_invariant_c2 "/root/of/".toList "/root/of/x".toList).1
    (by decide) (by decide) (by decide)

end Py2Store
